import Mathlib

/- Verification of the replication control plane of StorageReplicatedMergeTree
   (src/dbms/src/Storages/StorageReplicatedMergeTree.cpp).

   The coordinator (ZooKeeper) state touched by each function is passed in
   explicitly: node values become `String → Option Nat` or list-valued
   parameters, children lists become `List` parameters, and the multi
   operations a function issues are returned as values of type `ZkOp`.
   All numeric node values are parsed as UInt64 in the source; we model them
   as `Nat` and carry explicit `< 2 ^ 64` bounds where the sentinel value
   `std::numeric_limits<UInt64>::max()` matters. -/

/-- Creation modes of coordinator nodes (zkutil::CreateMode). -/
inductive CreateMode where
  | persistent
  | ephemeral
  | persistentSequential
deriving DecidableEq, Repr

/-- A single operation inside an atomic coordinator `multi` (zkutil::Op). -/
inductive ZkOp where
  | create (path : String) (value : String) (mode : CreateMode)
  | setData (path : String) (value : String)
  | remove (path : String)
deriving DecidableEq, Repr

/- ===================== C1: clearOldLogs ===================== -/

/- StorageReplicatedMergeTree::clearOldLogs walks the `/replicas` children and
   reads `log_pointers/<replica_name>` from each.  A failed tryGet returns from
   the function; otherwise `min_pointer` (initialised to UInt64 max) is folded
   with `min`.  We model the fold directly; `none` signals the early return. -/
def minPointerAux : List String → (String → Option Nat) → Nat → Option Nat
  | [], _, acc => some acc
  | r :: rs, ptr, acc =>
    match ptr r with
    | none => none
    | some v => minPointerAux rs ptr (min acc v)

/-- Model of StorageReplicatedMergeTree::clearOldLogs.
    `replicas` is `getChildren(zookeeper_path + "/replicas")`,
    `ptr r` is the parsed value of `/replicas/<r>/log_pointers/<replica_name>`
    (`none` when tryGet fails), and `logIndices` are the numeric suffixes of
    the children of the replica's own `/log`.  The source sorts the log node
    names (10-digit zero padding makes lexicographic = numeric order) and
    removes entries while `index < min_pointer`, breaking at the first
    `index >= min_pointer`.  The returned list is the removed indices. -/
def clearOldLogs (replicas : List String) (ptr : String → Option Nat)
    (logIndices : List Nat) : List Nat :=
  match minPointerAux replicas ptr (2 ^ 64 - 1) with
  | none => []
  | some m => (logIndices.insertionSort (· ≤ ·)).takeWhile (fun i => decide (i < m))

theorem minPointerAux_none {replicas : List String} {ptr : String → Option Nat}
    (h : ∃ r ∈ replicas, ptr r = none) (acc : Nat) :
    minPointerAux replicas ptr acc = none := by
  induction replicas generalizing acc with
  | nil => rcases h with ⟨r, hr, _⟩; cases hr
  | cons a rs ih =>
    rcases h with ⟨r, hr, hnone⟩
    rcases List.mem_cons.mp hr with heq | hmem
    · subst heq; simp [minPointerAux, hnone]
    · cases hp : ptr a with
      | none => simp [minPointerAux, hp]
      | some v => simp [minPointerAux, hp]; exact ih ⟨r, hmem, hnone⟩ _

theorem minPointerAux_some {replicas : List String} {ptr : String → Option Nat}
    (h : ∀ r ∈ replicas, (ptr r).isSome) (acc : Nat) :
    ∃ m, minPointerAux replicas ptr acc = some m ∧
      ∀ i, i < m ↔ (i < acc ∧ ∀ r ∈ replicas, ∀ v, ptr r = some v → i < v) := by
  induction replicas generalizing acc with
  | nil => exact ⟨acc, rfl, fun i => by simp⟩
  | cons a rs ih =>
    have ha : (ptr a).isSome := h a (List.mem_cons_self a rs)
    rcases Option.isSome_iff_exists.mp ha with ⟨v, hv⟩
    have hrs : ∀ r ∈ rs, (ptr r).isSome := fun r hr => h r (List.mem_cons_of_mem a hr)
    rcases ih hrs (min acc v) with ⟨m, hm, hiff⟩
    refine ⟨m, by simp [minPointerAux, hv, hm], fun i => ?_⟩
    rw [hiff i]
    constructor
    · rintro ⟨hlt, hall⟩
      rcases Nat.lt_min.mp hlt with ⟨h1, h2⟩
      refine ⟨h1, fun r hr w hw => ?_⟩
      rcases List.mem_cons.mp hr with heq | hmem
      · subst heq; rw [hv] at hw; cases hw; exact h2
      · exact hall r hmem w hw
    · rintro ⟨hlt, hall⟩
      refine ⟨Nat.lt_min.mpr ⟨hlt, hall a (List.mem_cons_self a rs) v hv⟩,
        fun r hr w hw => hall r (List.mem_cons_of_mem a hr) w hw⟩

theorem takeWhile_lt_eq_filter {m : Nat} :
    ∀ {l : List Nat}, l.Sorted (· ≤ ·) →
      l.takeWhile (fun i => decide (i < m)) = l.filter (fun i => decide (i < m)) := by
  intro l hl
  induction l with
  | nil => rfl
  | cons a t ih =>
    rcases List.sorted_cons.mp hl with ⟨hle, ht⟩
    by_cases hm : a < m
    · simp [List.takeWhile_cons, List.filter_cons, hm, ih ht]
    · simp only [List.takeWhile_cons, List.filter_cons, decide_eq_false hm,
        Bool.false_eq_true, if_false]
      symm
      rw [List.filter_eq_nil_iff]
      intro b hb
      have hab : a ≤ b := hle b hb
      simp only [decide_eq_true_eq]
      omega

/-- C1: clearOldLogs on the owning replica removes exactly the log indices
    strictly below the minimum of the `log_pointers/<self>` values of all
    replicas (equivalently, the indices strictly below every reported pointer
    value), and removes nothing at all as soon as one replica lacks the
    pointer node. -/
theorem clearOldLogs_trims_below_min (replicas : List String)
    (ptr : String → Option Nat) (logIndices : List Nat) :
    ((replicas ≠ []) →
      (∀ r ∈ replicas, ∀ v, ptr r = some v → v < 2 ^ 64) →
      (∀ r ∈ replicas, (ptr r).isSome) →
      (clearOldLogs replicas ptr logIndices).Perm
        (logIndices.filter
          (fun i => decide (∀ v ∈ replicas.filterMap ptr, i < v))))
    ∧ ((∃ r ∈ replicas, ptr r = none) → clearOldLogs replicas ptr logIndices = []) := by
  constructor
  · intro hne hbound hsome
    rcases minPointerAux_some hsome (2 ^ 64 - 1) with ⟨m, hm, hiff⟩
    have hcl : clearOldLogs replicas ptr logIndices
        = (logIndices.insertionSort (· ≤ ·)).takeWhile (fun i => decide (i < m)) := by
      unfold clearOldLogs
      rw [hm]
    rw [hcl]
    rw [takeWhile_lt_eq_filter (List.sorted_insertionSort _ logIndices)]
    have hpred : ∀ i : Nat,
        (decide (i < m)) = (decide (∀ v ∈ replicas.filterMap ptr, i < v)) := by
      intro i
      rw [decide_eq_decide]
      rcases List.exists_mem_of_ne_nil replicas hne with ⟨r0, hr0⟩
      rcases Option.isSome_iff_exists.mp (hsome r0 hr0) with ⟨v0, hv0⟩
      rw [hiff i]
      constructor
      · rintro ⟨_, hall⟩
        intro v hv
        rcases List.mem_filterMap.mp hv with ⟨r, hr, hrv⟩
        exact hall r hr v hrv
      · intro hall
        have h1 : i < v0 :=
          hall v0 (List.mem_filterMap.mpr ⟨r0, hr0, hv0⟩)
        have h2 : v0 < 2 ^ 64 := hbound r0 hr0 v0 hv0
        refine ⟨by omega, fun r hr v hv => ?_⟩
        exact hall v (List.mem_filterMap.mpr ⟨r, hr, hv⟩)
    rw [List.filter_congr (fun i _ => hpred i)]
    exact List.Perm.filter _ (List.perm_insertionSort _ logIndices)
  · intro h
    unfold clearOldLogs
    rw [minPointerAux_none h]

/-- Concrete check for C1: both branches evaluated on explicit inputs.  With
    pointers 3 and 5 present on both replicas, exactly indices 0,1,2 are
    trimmed from log [0,1,2,3,4,5]; with a missing pointer nothing is. -/
theorem clearOldLogs_trims_below_min_check :
    (clearOldLogs ["r1", "r2"]
        (fun r => if r = "r1" then some 3 else some 5) [0, 1, 2, 3, 4, 5]).Perm
      ([0, 1, 2, 3, 4, 5].filter
        (fun i => decide (∀ v ∈ (["r1", "r2"].filterMap
          (fun r => (if r = "r1" then some 3 else some 5 : Option Nat))), i < v))) ∧
    clearOldLogs ["r1", "r2"]
        (fun r => if r = "r1" then none else some 5) [0, 1, 2, 3, 4, 5] = [] := by
  constructor
  · exact (clearOldLogs_trims_below_min ["r1", "r2"]
      (fun r => if r = "r1" then some 3 else some 5) [0, 1, 2, 3, 4, 5]).1
      (by decide)
      (by intro r hr v hv; fin_cases hr <;> simp_all <;> omega)
      (by intro r hr; fin_cases hr <;> simp)
  · exact (clearOldLogs_trims_below_min ["r1", "r2"]
      (fun r => if r = "r1" then none else some 5) [0, 1, 2, 3, 4, 5]).2
      ⟨"r1", by simp, by simp⟩

/- ===================== C2, C3: pullLogsToQueue ===================== -/

/-- One record of a peer's replication log as read through the coordinator:
    the numeric suffix of its `log-<10 digits>` node name, the entry text,
    and the node's czxid (creation timestamp). -/
structure LogRecord where
  index : Nat
  entry : String
  czxid : Int
deriving DecidableEq, Repr

/-- The iterator state used by pullLogsToQueue (struct LogIterator). -/
structure LogIterator where
  replica : String
  index : Nat
  timestamp : Int
  entry_str : String
deriving DecidableEq, Repr

/-- LogIterator::readEntry: tryGet of `/replicas/<replica>/log/log-<index>`;
    on success it fills the entry text and the node's czxid. -/
def readEntry (logs : String → List LogRecord) (it : LogIterator) : Option LogIterator :=
  match (logs it.replica).find? (fun e => decide (e.index = it.index)) with
  | none => none
  | some e => some { it with entry_str := e.entry, timestamp := e.czxid }

/-- Pointer initialisation in pullLogsToQueue when `log_pointers/<peer>` does
    not exist yet: the peer's log children are sorted (10-digit zero padding
    makes lexicographic = numeric order) and the first index is taken, or 0
    for an empty log. -/
def initPointer (plog : List LogRecord) : Nat :=
  match (plog.map (fun e => e.index)).insertionSort (· ≤ ·) with
  | [] => 0
  | i :: _ => i

/-- The log index at which this replica starts reading peer `r`:
    the stored `log_pointers/<r>` value, or the freshly initialised one. -/
def startIndex (logs : String → List LogRecord) (ptrs : String → Option Nat)
    (r : String) : Nat :=
  match ptrs r with
  | some i => i
  | none => initPointer (logs r)

/-- The iterators pushed onto the priority queue before the drain loop: one
    per replica whose readEntry at its start index succeeds. -/
def initIterators (logs : String → List LogRecord) (ptrs : String → Option Nat)
    (replicas : List String) : List LogIterator :=
  replicas.filterMap (fun r =>
    readEntry logs { replica := r, index := startIndex logs ptrs r,
                     timestamp := 0, entry_str := "" })

/-- Pop the iterator with the minimal czxid.  std::priority_queue with
    `operator<` comparing `timestamp > rhs.timestamp` pops the smallest
    timestamp; the order among equal timestamps is unspecified and is
    modelled as the first minimal element. -/
def popMin : List LogIterator → Option (LogIterator × List LogIterator)
  | [] => none
  | it :: its =>
    match popMin its with
    | none => some (it, [])
    | some (m, rest) =>
      if it.timestamp ≤ m.timestamp then some (it, its) else some (m, it :: rest)

/-- One entry as pulled into the local in-memory queue: the peer log it came
    from, its index there, its czxid and its text. -/
structure PulledEntry where
  replica : String
  index : Nat
  timestamp : Int
  entry_str : String
deriving DecidableEq, Repr

/-- The atomic multi committed for one popped entry: create a sequential
    `queue/queue-` node holding the entry body AND set `log_pointers/<peer>`
    to `index + 1`. -/
def pullMultiOps (replica_path : String) (e : PulledEntry) : List ZkOp :=
  [ZkOp.create (replica_path ++ "/queue/queue-") e.entry_str CreateMode.persistentSequential,
   ZkOp.setData (replica_path ++ "/log_pointers/" ++ e.replica) (toString (e.index + 1))]

/-- The drain loop of pullLogsToQueue: while the priority queue is nonempty,
    pop the minimal-czxid iterator, emit its entry (appended to the local
    queue together with its atomic multi), advance the iterator and re-insert
    it if its next log entry exists.  `fuel` bounds the loop iterations; a
    terminating run of the source loop is `drain` with enough fuel, and the
    theorems below hold for every fuel value. -/
def drain (logs : String → List LogRecord) : Nat → List LogIterator → List PulledEntry
  | 0, _ => []
  | fuel + 1, its =>
    match popMin its with
    | none => []
    | some (it, rest) =>
      { replica := it.replica, index := it.index,
        timestamp := it.timestamp, entry_str := it.entry_str } ::
      drain logs fuel
        (match readEntry logs { it with index := it.index + 1 } with
         | none => rest
         | some it2 => rest ++ [it2])

/-- Model of StorageReplicatedMergeTree::pullLogsToQueue: the sequence of
    entries appended to the local queue, in order. -/
def pullLogsToQueue (logs : String → List LogRecord) (ptrs : String → Option Nat)
    (replicas : List String) (fuel : Nat) : List PulledEntry :=
  drain logs fuel (initIterators logs ptrs replicas)

/-- An iterator is valid when its timestamp and text are those of an actual
    record of its peer log at its index. -/
def ValidIter (logs : String → List LogRecord) (it : LogIterator) : Prop :=
  ∃ e ∈ logs it.replica, e.index = it.index ∧ e.czxid = it.timestamp

/-- Within one peer log, czxid does not decrease from a record to the record
    at the next index.  This is the coordinator guarantee that sequentially
    created log nodes get non-decreasing creation timestamps. -/
def MonoLogs (logs : String → List LogRecord) : Prop :=
  ∀ r, ∀ e1 ∈ logs r, ∀ e2 ∈ logs r, e1.index + 1 = e2.index → e1.czxid ≤ e2.czxid

theorem readEntry_valid {logs : String → List LogRecord} {it0 it : LogIterator}
    (h : readEntry logs it0 = some it) :
    ValidIter logs it ∧ it.replica = it0.replica ∧ it.index = it0.index := by
  unfold readEntry at h
  cases hf : (logs it0.replica).find? (fun e => decide (e.index = it0.index)) with
  | none => rw [hf] at h; cases h
  | some e =>
    rw [hf] at h
    cases h
    have hmem := List.mem_of_find?_eq_some hf
    have hpred := List.find?_some hf
    simp only [decide_eq_true_eq] at hpred
    exact ⟨⟨e, hmem, hpred, rfl⟩, rfl, rfl⟩

theorem popMin_eq_none {its : List LogIterator} : popMin its = none ↔ its = [] := by
  cases its with
  | nil => simp [popMin]
  | cons it its =>
    simp only [popMin]
    cases popMin its <;> simp only [] <;> constructor <;> intro h <;> first
      | cases h
      | (split at h <;> cases h)

theorem popMin_spec {its : List LogIterator} {m : LogIterator} {rest : List LogIterator}
    (h : popMin its = some (m, rest)) :
    (∃ l1 l2, its = l1 ++ m :: l2 ∧ rest = l1 ++ l2) ∧
      (∀ x ∈ its, m.timestamp ≤ x.timestamp) := by
  induction its generalizing m rest with
  | nil => cases h
  | cons it its ih =>
    simp only [popMin] at h
    cases hp : popMin its with
    | none =>
      rw [hp] at h
      cases h
      have : its = [] := popMin_eq_none.mp hp
      subst this
      exact ⟨⟨[], [], rfl, rfl⟩, by simp⟩
    | some p =>
      rcases p with ⟨m2, rest2⟩
      rw [hp] at h
      dsimp only at h
      rcases ih hp with ⟨⟨l1, l2, hsplit, hrest⟩, hmin⟩
      by_cases hle : it.timestamp ≤ m2.timestamp
      · rw [if_pos hle] at h
        cases h
        refine ⟨⟨[], its, rfl, rfl⟩, fun x hx => ?_⟩
        rcases List.mem_cons.mp hx with hx | hx
        · subst hx; exact le_refl _
        · exact le_trans hle (hmin x hx)
      · rw [if_neg hle] at h
        cases h
        refine ⟨⟨it :: l1, l2, by rw [hsplit]; rfl, by rw [hrest]; rfl⟩, fun x hx => ?_⟩
        rcases List.mem_cons.mp hx with hx | hx
        · subst hx; omega
        · exact hmin x hx

theorem advance_valid {logs : String → List LogRecord} (hmono : MonoLogs logs)
    {it it2 : LogIterator} (hv : ValidIter logs it)
    (h : readEntry logs { it with index := it.index + 1 } = some it2) :
    ValidIter logs it2 ∧ it2.replica = it.replica ∧ it2.index = it.index + 1 ∧
      it.timestamp ≤ it2.timestamp := by
  rcases readEntry_valid h with ⟨hv2, hrep, hidx⟩
  dsimp only at hrep hidx
  refine ⟨hv2, hrep, hidx, ?_⟩
  rcases hv with ⟨e1, he1, he1i, he1c⟩
  rcases hv2 with ⟨e2, he2, he2i, he2c⟩
  rw [hrep] at he2
  have : e1.czxid ≤ e2.czxid := by
    apply hmono it.replica e1 he1 e2 he2
    omega
  omega

theorem drain_valid_next {logs : String → List LogRecord} (hmono : MonoLogs logs)
    {it : LogIterator} {rest : List LogIterator}
    (hvr : ∀ x ∈ rest, ValidIter logs x) (hv : ValidIter logs it) :
    ∀ x ∈ (match readEntry logs { it with index := it.index + 1 } with
            | none => rest
            | some it2 => rest ++ [it2]), ValidIter logs x := by
  cases hre : readEntry logs { it with index := it.index + 1 } with
  | none => simpa using hvr
  | some it2 =>
    intro x hx
    simp only [List.mem_append, List.mem_singleton] at hx
    rcases hx with hx | hx
    · exact hvr x hx
    · subst hx; exact (advance_valid hmono hv hre).1

theorem drain_lb {logs : String → List LogRecord} (hmono : MonoLogs logs) :
    ∀ (fuel : Nat) (its : List LogIterator) (b : Int),
      (∀ it ∈ its, ValidIter logs it) → (∀ it ∈ its, b ≤ it.timestamp) →
      ∀ e ∈ drain logs fuel its, b ≤ e.timestamp := by
  intro fuel
  induction fuel with
  | zero => intro its b _ _ e he; cases he
  | succ fuel ih =>
    intro its b hvalid hb e he
    simp only [drain] at he
    cases hp : popMin its with
    | none => rw [hp] at he; cases he
    | some p =>
      rcases p with ⟨m, rest⟩
      rw [hp] at he
      rcases popMin_spec hp with ⟨⟨l1, l2, hsplit, hrest⟩, hmin⟩
      have hm_mem : m ∈ its := by rw [hsplit]; exact List.mem_append_right _ (List.mem_cons_self _ _)
      have hrest_mem : ∀ x ∈ rest, x ∈ its := by
        intro x hx
        rw [hrest] at hx
        rw [hsplit]
        rcases List.mem_append.mp hx with hx | hx
        · exact List.mem_append_left _ hx
        · exact List.mem_append_right _ (List.mem_cons_of_mem _ hx)
      rcases List.mem_cons.mp he with he | he
      · subst he; exact hb m hm_mem
      · have hbm : b ≤ m.timestamp := hb m hm_mem
        have hrec : m.timestamp ≤ e.timestamp := by
          apply ih _ m.timestamp _ _ e he
          · exact drain_valid_next hmono (fun x hx => hvalid x (hrest_mem x hx)) (hvalid m hm_mem)
          · cases hre : readEntry logs { m with index := m.index + 1 } with
            | none =>
              simp only [hre]
              intro x hx
              exact hmin x (hrest_mem x hx)
            | some it2 =>
              simp only [hre]
              intro x hx
              simp only [List.mem_append, List.mem_singleton] at hx
              rcases hx with hx | hx
              · exact hmin x (hrest_mem x hx)
              · subst hx
                exact (advance_valid hmono (hvalid m hm_mem) hre).2.2.2
        omega

theorem drain_chain {logs : String → List LogRecord} (hmono : MonoLogs logs) :
    ∀ (fuel : Nat) (its : List LogIterator),
      (∀ it ∈ its, ValidIter logs it) →
      List.Chain' (· ≤ ·) ((drain logs fuel its).map (fun e => e.timestamp)) := by
  intro fuel
  induction fuel with
  | zero => intro its _; simp [drain]
  | succ fuel ih =>
    intro its hvalid
    simp only [drain]
    cases hp : popMin its with
    | none => simp
    | some pr =>
      rcases pr with ⟨m, rest⟩
      rcases popMin_spec hp with ⟨⟨l1, l2, hsplit, hrest⟩, hmin⟩
      have hm_mem : m ∈ its := by
        rw [hsplit]; exact List.mem_append_right _ (List.mem_cons_self _ _)
      have hrest_mem : ∀ x ∈ rest, x ∈ its := by
        intro x hx
        rw [hrest] at hx
        rw [hsplit]
        rcases List.mem_append.mp hx with hx | hx
        · exact List.mem_append_left _ hx
        · exact List.mem_append_right _ (List.mem_cons_of_mem _ hx)
      have hvalid2 : ∀ x ∈ (match readEntry logs { m with index := m.index + 1 } with
          | none => rest
          | some it2 => rest ++ [it2]), ValidIter logs x :=
        drain_valid_next hmono (fun x hx => hvalid x (hrest_mem x hx)) (hvalid m hm_mem)
      have hlb : ∀ x ∈ (match readEntry logs { m with index := m.index + 1 } with
          | none => rest
          | some it2 => rest ++ [it2]), m.timestamp ≤ x.timestamp := by
        cases hre : readEntry logs { m with index := m.index + 1 } with
        | none =>
          simp only [hre]
          intro x hx
          exact hmin x (hrest_mem x hx)
        | some it2 =>
          simp only [hre]
          intro x hx
          simp only [List.mem_append, List.mem_singleton] at hx
          rcases hx with hx | hx
          · exact hmin x (hrest_mem x hx)
          · subst hx
            exact (advance_valid hmono (hvalid m hm_mem) hre).2.2.2
      simp only [List.map_cons]
      rw [List.chain'_cons']
      constructor
      · intro y hy
        rw [List.head?_map] at hy
        rcases Option.map_eq_some'.mp hy with ⟨e, he, hye⟩
        have he2 := List.mem_of_mem_head? he
        have := drain_lb hmono fuel _ m.timestamp hvalid2 hlb e he2
        omega
      · exact ih _ hvalid2

/-- C2: in every run of pullLogsToQueue (any fuel), provided each peer log
    has non-decreasing czxid along its indices (the coordinator guarantee for
    sequentially created nodes), the entries appended to the local queue have
    non-decreasing czxid, and each popped entry is committed by one atomic
    multi that creates a sequential `queue/queue-` node holding the entry
    body and sets `log_pointers/<peer>` to `index + 1`. -/
theorem pullLogsToQueue_czxid_order (logs : String → List LogRecord)
    (ptrs : String → Option Nat) (replicas : List String) (fuel : Nat)
    (replica_path : String) (hmono : MonoLogs logs) :
    List.Chain' (· ≤ ·)
      ((pullLogsToQueue logs ptrs replicas fuel).map (fun e => e.timestamp)) ∧
    ∀ e ∈ pullLogsToQueue logs ptrs replicas fuel,
      pullMultiOps replica_path e =
        [ZkOp.create (replica_path ++ "/queue/queue-") e.entry_str
           CreateMode.persistentSequential,
         ZkOp.setData (replica_path ++ "/log_pointers/" ++ e.replica)
           (toString (e.index + 1))] := by
  constructor
  · apply drain_chain hmono
    intro it hit
    rcases List.mem_filterMap.mp hit with ⟨r, _, hread⟩
    exact (readEntry_valid hread).1
  · intro e _
    rfl

/-- The priority queue never holds two iterators for the same replica (one is
    created per replica, and a popped iterator is re-inserted at most once). -/
def NoDupReplicas (its : List LogIterator) : Prop :=
  List.Pairwise (fun a b => a.replica ≠ b.replica) its

theorem readEntry_replica_index {logs : String → List LogRecord}
    {r : String} {i : Nat} {it : LogIterator}
    (h : readEntry logs { replica := r, index := i, timestamp := 0, entry_str := "" }
      = some it) : it.replica = r ∧ it.index = i := by
  have := readEntry_valid h
  exact ⟨this.2.1, this.2.2⟩

theorem drain_no_iter {logs : String → List LogRecord} :
    ∀ (fuel : Nat) (its : List LogIterator) (p : String),
      (∀ it ∈ its, it.replica ≠ p) →
      (drain logs fuel its).filter (fun e => decide (e.replica = p)) = [] := by
  intro fuel
  induction fuel with
  | zero => intro its p _; simp [drain]
  | succ fuel ih =>
    intro its p hnp
    simp only [drain]
    cases hp : popMin its with
    | none => simp
    | some pr =>
      rcases pr with ⟨m, rest⟩
      rcases popMin_spec hp with ⟨⟨l1, l2, hsplit, hrest⟩, _⟩
      have hm_mem : m ∈ its := by
        rw [hsplit]; exact List.mem_append_right _ (List.mem_cons_self _ _)
      have hrest_mem : ∀ x ∈ rest, x ∈ its := by
        intro x hx
        rw [hrest] at hx
        rw [hsplit]
        rcases List.mem_append.mp hx with hx | hx
        · exact List.mem_append_left _ hx
        · exact List.mem_append_right _ (List.mem_cons_of_mem _ hx)
      rw [List.filter_cons]
      rw [decide_eq_false (by exact hnp m hm_mem)]
      simp only [Bool.false_eq_true, if_false]
      apply ih
      cases hre : readEntry logs { m with index := m.index + 1 } with
      | none =>
        simp only [hre]
        intro x hx
        exact hnp x (hrest_mem x hx)
      | some it2 =>
        simp only [hre]
        intro x hx
        rcases List.mem_append.mp hx with hx | hx
        · exact hnp x (hrest_mem x hx)
        · rw [List.mem_singleton] at hx
          subst hx
          have hr := (readEntry_valid hre).2.1
          dsimp only at hr
          rw [hr]
          exact hnp m hm_mem

theorem nodup_replicas_split {l1 l2 : List LogIterator} {m : LogIterator}
    (h : NoDupReplicas (l1 ++ m :: l2)) :
    NoDupReplicas (l1 ++ l2) ∧ (∀ x ∈ l1 ++ l2, x.replica ≠ m.replica) := by
  unfold NoDupReplicas at h ⊢
  rcases List.pairwise_append.mp h with ⟨h1, h23, hcross⟩
  rcases List.pairwise_cons.mp h23 with ⟨hm, h2⟩
  constructor
  · rw [List.pairwise_append]
    refine ⟨h1, h2, fun a ha b hb => hcross a ha b (List.mem_cons_of_mem _ hb)⟩
  · intro x hx
    rcases List.mem_append.mp hx with hx | hx
    · exact hcross x hx m (List.mem_cons_self _ _)
    · exact (hm x hx).symm

theorem drain_consec {logs : String → List LogRecord} :
    ∀ (fuel : Nat) (its : List LogIterator) (p : String) (itp : LogIterator),
      NoDupReplicas its → itp ∈ its → itp.replica = p →
      ∃ k, ((drain logs fuel its).filter (fun e => decide (e.replica = p))).map
        (fun e => e.index) = List.range' itp.index k := by
  intro fuel
  induction fuel with
  | zero => intro its p itp _ _ _; exact ⟨0, by simp [drain]⟩
  | succ fuel ih =>
    intro its p itp hnd hmem hrep
    simp only [drain]
    cases hp : popMin its with
    | none =>
      rw [popMin_eq_none.mp hp] at hmem
      cases hmem
    | some pr =>
      rcases pr with ⟨m, rest⟩
      rcases popMin_spec hp with ⟨⟨l1, l2, hsplit, hrest⟩, _⟩
      subst hsplit
      subst hrest
      rcases nodup_replicas_split hnd with ⟨hnd2, hneq⟩
      by_cases hpq : m.replica = p
      · -- the popped iterator is the one for p; its entry is emitted
        have hitp_eq : itp = m := by
          rcases List.mem_append.mp hmem with hx | hx
          · exact absurd (by rw [hrep, hpq]) (hneq itp (List.mem_append_left _ hx))
          · rcases List.mem_cons.mp hx with hx | hx
            · exact hx
            · exact absurd (by rw [hrep, hpq]) (hneq itp (List.mem_append_right _ hx))
        have hidx_eq : itp.index = m.index := by rw [hitp_eq]
        rw [hidx_eq]
        have hfilter_m : (decide (m.replica = p)) = true := decide_eq_true hpq
        cases hre : readEntry logs { m with index := m.index + 1 } with
        | none =>
          simp only [hre]
          have hzero : (drain logs fuel (l1 ++ l2)).filter
              (fun e => decide (e.replica = p)) = [] := by
            apply drain_no_iter
            intro x hx
            rw [hpq] at hneq
            exact hneq x hx
          rw [List.filter_cons]
          simp only [hfilter_m, if_true, hzero]
          exact ⟨1, by simp [List.range'_one, hpq]⟩
        | some it2 =>
          simp only [hre]
          have hadv := readEntry_valid hre
          have hr2 : it2.replica = m.replica := by
            have := hadv.2.1; dsimp only at this; exact this
          have hi2 : it2.index = m.index + 1 := by
            have := hadv.2.2; dsimp only at this; exact this
          have hnd3 : NoDupReplicas ((l1 ++ l2) ++ [it2]) := by
            unfold NoDupReplicas
            rw [List.pairwise_append]
            refine ⟨hnd2, List.pairwise_singleton _ _, fun a ha b hb => ?_⟩
            rw [List.mem_singleton] at hb
            subst hb
            rw [hr2]
            exact hneq a ha
          have hmem3 : it2 ∈ (l1 ++ l2) ++ [it2] :=
            List.mem_append_right _ (List.mem_singleton_self _)
          rcases ih ((l1 ++ l2) ++ [it2]) p it2 hnd3 hmem3 (by rw [hr2, hpq]) with ⟨k, hk⟩
          refine ⟨k + 1, ?_⟩
          rw [List.filter_cons]
          simp only [hfilter_m, if_true, List.map_cons]
          rw [hk, hi2, List.range'_succ]
      · -- the popped iterator is for another replica; p's iterator survives
        have hitp : itp ∈ l1 ++ l2 := by
          rcases List.mem_append.mp hmem with hx | hx
          · exact List.mem_append_left _ hx
          · rcases List.mem_cons.mp hx with hx | hx
            · exfalso; apply hpq; rw [← hx]; exact hrep
            · exact List.mem_append_right _ hx
        have hfilter_m : (decide (m.replica = p)) = false := decide_eq_false hpq
        rw [List.filter_cons]
        simp only [hfilter_m, Bool.false_eq_true, if_false]
        cases hre : readEntry logs { m with index := m.index + 1 } with
        | none =>
          exact ih (l1 ++ l2) p itp hnd2 hitp hrep
        | some it2 =>
          have hadv := readEntry_valid hre
          have hr2 : it2.replica = m.replica := by
            have := hadv.2.1; dsimp only at this; exact this
          have hnd3 : NoDupReplicas ((l1 ++ l2) ++ [it2]) := by
            unfold NoDupReplicas
            rw [List.pairwise_append]
            refine ⟨hnd2, List.pairwise_singleton _ _, fun a ha b hb => ?_⟩
            rw [List.mem_singleton] at hb
            subst hb
            rw [hr2]
            exact hneq a ha
          exact ih ((l1 ++ l2) ++ [it2]) p itp hnd3 (List.mem_append_left _ hitp) hrep

theorem chain_le_cons_range (s k : Nat) :
    List.Chain' (· ≤ ·) (s :: List.range' (s + 1) k) := by
  induction k generalizing s with
  | zero => simp
  | succ k ih =>
    rw [List.range'_succ]
    rw [List.chain'_cons]
    exact ⟨by omega, by simpa using ih (s + 1)⟩

theorem map_succ_range (s k : Nat) :
    (List.range' s k).map (fun i => i + 1) = List.range' (s + 1) k := by
  have h1 : (fun i => i + 1) = (fun i => 1 + i) := by
    funext i; omega
  rw [h1, List.map_add_range']
  rw [Nat.add_comm 1 s]

theorem initIterators_nodup {logs : String → List LogRecord}
    {ptrs : String → Option Nat} {replicas : List String} (hnd : replicas.Nodup) :
    NoDupReplicas (initIterators logs ptrs replicas) := by
  unfold NoDupReplicas initIterators
  rw [List.pairwise_filterMap]
  apply List.Pairwise.imp ?_ hnd
  intro a b hab it1 h1 it2 h2
  rw [Option.mem_def] at h1 h2
  have ha := (readEntry_replica_index h1).1
  have hb := (readEntry_replica_index h2).1
  rw [ha, hb]
  exact hab

theorem initIterators_index {logs : String → List LogRecord}
    {ptrs : String → Option Nat} {replicas : List String} {it : LogIterator}
    (h : it ∈ initIterators logs ptrs replicas) :
    it.index = startIndex logs ptrs it.replica ∧ it.replica ∈ replicas := by
  rcases List.mem_filterMap.mp h with ⟨r, hr, hread⟩
  rcases readEntry_replica_index hread with ⟨hrep, hidx⟩
  exact ⟨by rw [hidx, hrep], by rw [hrep]; exact hr⟩

theorem initPointer_spec (plog : List LogRecord) :
    (plog = [] → initPointer plog = 0) ∧
    (plog ≠ [] → ∃ e ∈ plog, initPointer plog = e.index ∧
      ∀ e2 ∈ plog, e.index ≤ e2.index) := by
  constructor
  · intro h; subst h; rfl
  · intro h
    unfold initPointer
    cases hs : (plog.map (fun e => e.index)).insertionSort (· ≤ ·) with
    | nil =>
      exfalso
      have hperm := List.perm_insertionSort (· ≤ ·) (plog.map (fun e => e.index))
      rw [hs] at hperm
      have hmap : plog.map (fun e => e.index) = [] := hperm.symm.eq_nil
      exact h (List.map_eq_nil_iff.mp hmap)
    | cons i t =>
      have hperm := List.perm_insertionSort (· ≤ ·) (plog.map (fun e => e.index))
      rw [hs] at hperm
      have hmem : i ∈ plog.map (fun e => e.index) :=
        hperm.mem_iff.mp (List.mem_cons_self _ _)
      rcases List.mem_map.mp hmem with ⟨e, he, hei⟩
      have hsorted := List.sorted_insertionSort (· ≤ ·) (plog.map (fun e => e.index))
      rw [hs] at hsorted
      rcases List.sorted_cons.mp hsorted with ⟨hhead, _⟩
      refine ⟨e, he, by rw [hei], fun e2 he2 => ?_⟩
      have hmem2 : e2.index ∈ i :: t :=
        hperm.mem_iff.mpr (List.mem_map.mpr ⟨e2, he2, rfl⟩)
      rw [hei]
      rcases List.mem_cons.mp hmem2 with hx | hx
      · omega
      · exact hhead _ hx

/-- C3: for every peer p, the sequence of values held by
    `/replicas/<self>/log_pointers/<p>` over a pullLogsToQueue run — the
    starting value (the stored pointer, or the one initialised by the run)
    followed by each value `index + 1` written for p by the atomic multis,
    in order — is non-decreasing; and when the pointer is initialised, it is
    set to the smallest existing log index of p, or 0 if p's log is empty. -/
theorem log_pointer_monotone (logs : String → List LogRecord)
    (ptrs : String → Option Nat) (replicas : List String) (fuel : Nat) (p : String)
    (hnd : replicas.Nodup) :
    List.Chain' (· ≤ ·)
      (startIndex logs ptrs p ::
        ((pullLogsToQueue logs ptrs replicas fuel).filter
          (fun e => decide (e.replica = p))).map (fun e => e.index + 1)) ∧
    (ptrs p = none →
      (logs p = [] → startIndex logs ptrs p = 0) ∧
      (logs p ≠ [] → ∃ e ∈ logs p, startIndex logs ptrs p = e.index ∧
        ∀ e2 ∈ logs p, e.index ≤ e2.index)) := by
  constructor
  · by_cases hc : ∃ itp ∈ initIterators logs ptrs replicas, itp.replica = p
    · rcases hc with ⟨itp, hmem, hrep⟩
      have hnd2 := @initIterators_nodup logs ptrs replicas hnd
      rcases drain_consec fuel _ p itp hnd2 hmem hrep with ⟨k, hk⟩
      have hidx := (initIterators_index hmem).1
      unfold pullLogsToQueue
      have hmap : ((drain logs fuel (initIterators logs ptrs replicas)).filter
            (fun e => decide (e.replica = p))).map (fun e => e.index + 1)
          = List.range' (startIndex logs ptrs p + 1) k := by
        have h1 : ((drain logs fuel (initIterators logs ptrs replicas)).filter
              (fun e => decide (e.replica = p))).map (fun e => e.index + 1)
            = (((drain logs fuel (initIterators logs ptrs replicas)).filter
              (fun e => decide (e.replica = p))).map (fun e => e.index)).map
                (fun i => i + 1) := by
          rw [List.map_map]
          rfl
        rw [h1, hk, map_succ_range]
        rw [hidx, hrep]
      rw [hmap]
      exact chain_le_cons_range _ k
    · push_neg at hc
      unfold pullLogsToQueue
      rw [drain_no_iter fuel _ p hc]
      simp
  · intro hnone
    have hsi : startIndex logs ptrs p = initPointer (logs p) := by
      unfold startIndex
      rw [hnone]
    rw [hsi]
    exact initPointer_spec (logs p)

/-- A two-replica coordinator snapshot used to evaluate the pull-logs model:
    each replica holds a two-entry log with interleaved czxids. -/
def demoLogs : String → List LogRecord := fun r =>
  if r = "r1" then [⟨0, "a0", 1⟩, ⟨1, "a1", 4⟩]
  else if r = "r2" then [⟨0, "b0", 2⟩, ⟨1, "b1", 3⟩]
  else []

theorem demoLogs_mono : MonoLogs demoLogs := by
  intro r e1 h1 e2 h2 hi
  unfold demoLogs at h1 h2
  by_cases ha : r = "r1"
  · rw [if_pos ha] at h1 h2
    fin_cases h1 <;> fin_cases h2 <;> simp_all
  · rw [if_neg ha] at h1 h2
    by_cases hb : r = "r2"
    · rw [if_pos hb] at h1 h2
      fin_cases h1 <;> fin_cases h2 <;> simp_all
    · rw [if_neg hb] at h1
      cases h1

/-- Concrete check for C2: the four entries of the two demo logs are pulled
    in czxid order 1,2,3,4 and each is committed by the create-and-advance
    multi. -/
theorem pullLogsToQueue_czxid_order_check :
    List.Chain' (· ≤ ·)
      ((pullLogsToQueue demoLogs (fun _ => some 0) ["r1", "r2"] 8).map
        (fun e => e.timestamp)) ∧
    ∀ e ∈ pullLogsToQueue demoLogs (fun _ => some 0) ["r1", "r2"] 8,
      pullMultiOps "/T/replicas/r1" e =
        [ZkOp.create ("/T/replicas/r1" ++ "/queue/queue-") e.entry_str
           CreateMode.persistentSequential,
         ZkOp.setData ("/T/replicas/r1" ++ "/log_pointers/" ++ e.replica)
           (toString (e.index + 1))] :=
  pullLogsToQueue_czxid_order demoLogs (fun _ => some 0) ["r1", "r2"] 8
    "/T/replicas/r1" demoLogs_mono

/-- Concrete check for C3: with the pointer for r2 absent, it starts at r2's
    smallest log index and every write advances it. -/
theorem log_pointer_monotone_check :
    List.Chain' (· ≤ ·)
      (startIndex demoLogs (fun r => if r = "r1" then some 0 else none) "r2" ::
        ((pullLogsToQueue demoLogs (fun r => if r = "r1" then some 0 else none)
          ["r1", "r2"] 8).filter (fun e => decide (e.replica = "r2"))).map
            (fun e => e.index + 1)) ∧
    ((fun r => if r = "r1" then some 0 else (none : Option Nat)) "r2" = none →
      (demoLogs "r2" = [] →
        startIndex demoLogs (fun r => if r = "r1" then some 0 else none) "r2" = 0) ∧
      (demoLogs "r2" ≠ [] → ∃ e ∈ demoLogs "r2",
        startIndex demoLogs (fun r => if r = "r1" then some 0 else none) "r2" = e.index ∧
        ∀ e2 ∈ demoLogs "r2", e.index ≤ e2.index)) :=
  log_pointer_monotone demoLogs (fun r => if r = "r1" then some 0 else none)
    ["r1", "r2"] 8 "r2" (by decide)

/- ============ Shared log entry model (C4, C8, C9) ============ -/

/-- The two log entry kinds (LogEntry::Type). -/
inductive EntryType where
  | get
  | merge
deriving DecidableEq, Repr

/-- An in-memory log/queue entry.  The `znode_name` bookkeeping field of the
    source struct names the entry's queue node; it is never serialised and is
    carried separately where a model needs it. -/
structure LogEntry where
  type : EntryType
  source_replica : String
  new_part_name : String
  parts_to_merge : List String
deriving DecidableEq, Repr

/- ===================== C4: fetch-failure reordering ===================== -/

/-- StorageReplicatedMergeTree::shouldExecuteLogEntry, over the set of part
    names currently tagged in future_parts. -/
def shouldExecuteLogEntry (future_parts : List String) (e : LogEntry) : Bool :=
  if (decide (e.type = EntryType.merge) || decide (e.type = EntryType.get))
      && decide (e.new_part_name ∈ future_parts) then
    false
  else if decide (e.type = EntryType.merge)
      && e.parts_to_merge.any (fun n => decide (n ∈ future_parts)) then
    false
  else
    true

/-- The selection step of queueTask: scan the in-memory queue in order, take
    the first entry for which shouldExecuteLogEntry holds, and erase it. -/
def selectEntry (future_parts : List String) :
    List LogEntry → Option (LogEntry × List LogEntry)
  | [] => none
  | e :: q =>
    if shouldExecuteLogEntry future_parts e then
      some (e, q)
    else
      match selectEntry future_parts q with
      | none => none
      | some (f, q2) => some (f, e :: q2)

/-- The scan at the top of the catch block of executeLogEntry: locate the
    first MERGE_PARTS entry whose parts_to_merge contains the failed part;
    returns the entries ahead of it, the entry itself, and the entries
    behind it. -/
def splitAtMerge (failedPart : String) :
    List LogEntry → Option (List LogEntry × LogEntry × List LogEntry)
  | [] => none
  | e :: q =>
    if decide (e.type = EntryType.merge) && decide (failedPart ∈ e.parts_to_merge) then
      some ([], e, q)
    else
      match splitAtMerge failedPart q with
      | none => none
      | some (before, me, after) => some (e :: before, me, after)

/-- The queue reordering performed under the queue mutex when a fetch of
    `failedPart` fails: every entry ahead of the located merge entry whose
    new_part_name is among the merge inputs is spliced to the tail of the
    queue in scan order (relative order preserved); the loop breaks at the
    merge entry, which stays where the remaining entries leave it, and
    everything behind it is untouched.  With no queued merge needing
    `failedPart` the queue is unchanged (parts_for_merge stays empty). -/
def reorderForMerge (failedPart : String) (queue : List LogEntry) : List LogEntry :=
  match splitAtMerge failedPart queue with
  | none => queue
  | some (before, me, after) =>
    before.filter (fun e =>
        !((decide (e.type = EntryType.merge) || decide (e.type = EntryType.get))
          && decide (e.new_part_name ∈ me.parts_to_merge)))
      ++ me :: after
      ++ before.filter (fun e =>
        (decide (e.type = EntryType.merge) || decide (e.type = EntryType.get))
          && decide (e.new_part_name ∈ me.parts_to_merge))

/-- The failure path of queueTask for a fetch that threw: the selected entry
    was already erased from the queue; executeLogEntry's catch block reorders
    what is left, and queueTask then re-appends the failed entry at the tail.
    The Bool records whether the entry's coordinator queue node was removed —
    it is not, since tryRemove runs only on success. -/
def queueTaskFetchFailure (entry : LogEntry) (queueAfterErase : List LogEntry) :
    List LogEntry × Bool :=
  (reorderForMerge entry.new_part_name queueAfterErase ++ [entry], false)

/-- Scenario S4 entry: fetch part p1. -/
def entryGetP1 : LogEntry := ⟨EntryType.get, "", "p1", []⟩

/-- Scenario S4 entry: fetch part p2. -/
def entryGetP2 : LogEntry := ⟨EntryType.get, "", "p2", []⟩

/-- Scenario S4 entry: merge p1 and p2 into p3. -/
def entryMergeP3 : LogEntry := ⟨EntryType.merge, "r1", "p3", ["p1", "p2"]⟩

theorem splitAtMerge_of_decomp {before after : List LogEntry} {me : LogEntry}
    {failedPart : String}
    (hme : me.type = EntryType.merge) (hmem : failedPart ∈ me.parts_to_merge)
    (hbefore : ∀ e ∈ before, ¬(e.type = EntryType.merge ∧ failedPart ∈ e.parts_to_merge)) :
    splitAtMerge failedPart (before ++ me :: after) = some (before, me, after) := by
  induction before with
  | nil =>
    simp only [List.nil_append, splitAtMerge]
    rw [if_pos]
    rw [decide_eq_true hme, decide_eq_true hmem]
    rfl
  | cons e bs ih =>
    simp only [List.cons_append, splitAtMerge]
    rw [if_neg]
    · simp only [List.append_eq]
      rw [ih (fun x hx => hbefore x (List.mem_cons_of_mem e hx))]
    · intro hcond
      rcases Bool.and_eq_true_iff.mp hcond with ⟨h1, h2⟩
      exact hbefore e (List.mem_cons_self e bs)
        ⟨of_decide_eq_true h1, of_decide_eq_true h2⟩

/-- C4: on a fetch failure for a merge input the executor reorders the queue
    exactly as scenario S4 describes: concretely,
    [GET p1, GET p2, MERGE p1+p2 into p3] with GET p1 selected and failing
    becomes [MERGE, GET p2, GET p1] with the queue node kept; and in general,
    for the first queued merge needing the failed part, the entries ahead of
    it whose new_part_name is among the merge inputs move to the tail in
    their relative order, the merge entry and everything behind it keep
    their relative places, and the failed entry itself is re-appended last
    with its coordinator node still present. -/
theorem queue_reorder_on_fetch_failure :
    (selectEntry [] [entryGetP1, entryGetP2, entryMergeP3]
        = some (entryGetP1, [entryGetP2, entryMergeP3]) ∧
      queueTaskFetchFailure entryGetP1 [entryGetP2, entryMergeP3]
        = ([entryMergeP3, entryGetP2, entryGetP1], false)) ∧
    (∀ (before after : List LogEntry) (me entry : LogEntry),
      me.type = EntryType.merge → entry.new_part_name ∈ me.parts_to_merge →
      (∀ e ∈ before,
        ¬(e.type = EntryType.merge ∧ entry.new_part_name ∈ e.parts_to_merge)) →
      queueTaskFetchFailure entry (before ++ me :: after)
        = (before.filter (fun e =>
              !((decide (e.type = EntryType.merge) || decide (e.type = EntryType.get))
                && decide (e.new_part_name ∈ me.parts_to_merge)))
            ++ me :: (after
            ++ (before.filter (fun e =>
              (decide (e.type = EntryType.merge) || decide (e.type = EntryType.get))
                && decide (e.new_part_name ∈ me.parts_to_merge))
            ++ [entry])), false)) := by
  constructor
  · constructor
    · decide
    · decide
  · intro before after me entry hme hmem hbefore
    unfold queueTaskFetchFailure reorderForMerge
    rw [splitAtMerge_of_decomp hme hmem hbefore]
    simp

/-- Concrete check for C4's general part, at the S4 instance: before the
    merge only GET p2 remains, and it is moved behind the merge entry with
    the failed GET p1 appended last. -/
theorem queue_reorder_on_fetch_failure_check :
    queueTaskFetchFailure entryGetP1 ([entryGetP2] ++ entryMergeP3 :: [])
      = ([entryGetP2].filter (fun e =>
            !((decide (e.type = EntryType.merge) || decide (e.type = EntryType.get))
              && decide (e.new_part_name ∈ entryMergeP3.parts_to_merge)))
          ++ entryMergeP3 :: (([] : List LogEntry)
          ++ ([entryGetP2].filter (fun e =>
            (decide (e.type = EntryType.merge) || decide (e.type = EntryType.get))
              && decide (e.new_part_name ∈ entryMergeP3.parts_to_merge))
          ++ [entryGetP1])), false) :=
  queue_reorder_on_fetch_failure.2 [entryGetP2] [] entryMergeP3 entryGetP1
    (by decide) (by decide) (by decide)

/- ===================== C5: checkParts sanity gate ===================== -/

/-- The reconciliation classification computed by checkParts.  `obsolete` is
    what remains of expected_parts after both erasure passes — the
    "unexpectedly obsolete parts" count of the sanity report. -/
structure CheckClassification where
  parts_to_add : List String
  parts_to_fetch : List String
  unexpected : List String
  obsolete : List String
deriving DecidableEq, Repr

/-- The loop of checkParts over the missing names: a covering local part that
    is still classified unexpected is reclassified to parts_to_add (and
    erased from unexpected); a missing name with no cover goes to
    parts_to_fetch.  Returns (to_add, to_fetch, unexpected after erasures). -/
def classifyMissing (containing : String → Option String) :
    List String → List String → List String × List String × List String
  | [], unexpected => ([], [], unexpected)
  | m :: ms, unexpected =>
    match containing m with
    | some c =>
      if c ∈ unexpected then
        let r := classifyMissing containing ms (unexpected.erase c)
        (c :: r.1, r.2.1, r.2.2)
      else
        classifyMissing containing ms unexpected
    | none =>
      let r := classifyMissing containing ms unexpected
      (r.1, m :: r.2.1, r.2.2)

/-- The classification part of StorageReplicatedMergeTree::checkParts.
    `expected` is children(replica_path/parts), `localParts` the names of
    data.getAllDataParts(), `containing m` the name of the local part
    covering m (data.getContainingPart), if any.  Missing names are scanned
    in sorted order, mirroring iteration over the NameSet. -/
def checkClassify (expected localParts : List String)
    (containing : String → Option String) : CheckClassification :=
  let missing := (expected.filter (fun e => decide (e ∉ localParts))).insertionSort (· ≤ ·)
  let unexpected0 := localParts.filter (fun p => decide (p ∉ expected))
  let r := classifyMissing containing missing unexpected0
  { parts_to_add := r.1
    parts_to_fetch := r.2.1
    unexpected := r.2.2
    obsolete := (expected.filter (fun e => decide (e ∉ localParts))).filter
      (fun e => decide (e ∉ r.2.1)) }

/-- Observable outcome of the checkParts sanity gate. -/
structure CheckPartsGate where
  threw : Bool
  sentinelRemoved : Bool
deriving DecidableEq, Repr

/-- The sanity gate of checkParts: the `/flags/force_restore_data` sentinel,
    when present, is removed (consumed) and turns the gate into a warning;
    otherwise the gate throws TOO_MANY_UNEXPECTED_DATA_PARTS exactly when
    one of the four counts exceeds its bound. -/
def checkPartsGate (expected localParts : List String)
    (containing : String → Option String) (sentinelPresent : Bool) : CheckPartsGate :=
  let c := checkClassify expected localParts containing
  let insane := decide (c.parts_to_add.length > 2) || decide (c.unexpected.length > 2)
    || decide (c.obsolete.length > 20) || decide (c.parts_to_fetch.length > 2)
  { threw := !sentinelPresent && insane, sentinelRemoved := sentinelPresent }

/-- C5: checkParts raises TOO_MANY_UNEXPECTED_DATA_PARTS exactly when
    |to_add| > 2 or |unexpected| > 2 or |obsolete| > 20 or |to_fetch| > 2
    holds and the force_restore_data sentinel is absent; a present sentinel
    bypasses the gate for this run and is removed on consumption. -/
theorem checkParts_sanity_gate (expected localParts : List String)
    (containing : String → Option String) (sentinelPresent : Bool) :
    ((checkPartsGate expected localParts containing sentinelPresent).threw = true ↔
      (((checkClassify expected localParts containing).parts_to_add.length > 2 ∨
        (checkClassify expected localParts containing).unexpected.length > 2 ∨
        (checkClassify expected localParts containing).obsolete.length > 20 ∨
        (checkClassify expected localParts containing).parts_to_fetch.length > 2) ∧
        sentinelPresent = false)) ∧
    (checkPartsGate expected localParts containing sentinelPresent).sentinelRemoved
      = sentinelPresent := by
  refine ⟨?_, rfl⟩
  unfold checkPartsGate
  cases sentinelPresent with
  | false => simp [Bool.or_eq_true, decide_eq_true_eq, or_assoc]
  | true => simp

/- ===================== C6: activateReplica ===================== -/

/-- The atomic multi issued by activateReplica: create `is_active` as an
    Ephemeral node and set `host` in one transaction.  The source passes the
    empty string as the created node's value. -/
def activateReplicaOps (replica_path hostValue : String) : List ZkOp :=
  [ZkOp.create (replica_path ++ "/is_active") "" CreateMode.ephemeral,
   ZkOp.setData (replica_path ++ "/host") hostValue]

/-- Outcome of activateReplica. -/
inductive ActivateOutcome where
  | ok
  | replicaIsAlreadyActive
deriving DecidableEq, Repr

/-- Model of StorageReplicatedMergeTree::activateReplica: the multi it
    issues, and its outcome given whether the multi fails with ZNODEEXISTS
    (the is_active node already present), which is rethrown as
    REPLICA_IS_ALREADY_ACTIVE. -/
def activateReplica (replica_path hostValue : String) (nodeExists : Bool) :
    List ZkOp × ActivateOutcome :=
  (activateReplicaOps replica_path hostValue,
   if nodeExists then ActivateOutcome.replicaIsAlreadyActive else ActivateOutcome.ok)

/-- C6 (code bug): activateReplica does atomically create `is_active` as an
    Ephemeral node and set `host` in one multi, and maps a node-exists
    failure to REPLICA_IS_ALREADY_ACTIVE — but the created node's value is
    the empty string, not the process's active-node identifier as the claim
    states: for every nonempty identifier the issued create differs from the
    claimed one.  This also makes the stale-node check
    `data == active_node_identifier` at the top of activateReplica dead
    code, so the spec is clearly the intent and the empty value a slip. -/
theorem activateReplica_creates_empty_value (replica_path hostValue id : String) :
    (activateReplica replica_path hostValue false).1
      = [ZkOp.create (replica_path ++ "/is_active") "" CreateMode.ephemeral,
         ZkOp.setData (replica_path ++ "/host") hostValue] ∧
    (activateReplica replica_path hostValue true).2
      = ActivateOutcome.replicaIsAlreadyActive ∧
    (id ≠ "" →
      ZkOp.create (replica_path ++ "/is_active") "" CreateMode.ephemeral
        ≠ ZkOp.create (replica_path ++ "/is_active") id CreateMode.ephemeral) := by
  refine ⟨rfl, rfl, fun hid h => hid ?_⟩
  injection h with h1 h2 h3
  exact h2.symm

/-- Concrete check for C6: with the identifier "12345" the node created by
    the code (value "") is not the node the claim describes (value
    "12345"). -/
theorem activateReplica_creates_empty_value_check :
    (activateReplica "/T/replicas/r1" "host: h\nport: 9009\n" false).1
      = [ZkOp.create ("/T/replicas/r1" ++ "/is_active") "" CreateMode.ephemeral,
         ZkOp.setData ("/T/replicas/r1" ++ "/host") "host: h\nport: 9009\n"] ∧
    (activateReplica "/T/replicas/r1" "host: h\nport: 9009\n" true).2
      = ActivateOutcome.replicaIsAlreadyActive ∧
    ZkOp.create ("/T/replicas/r1" ++ "/is_active") "" CreateMode.ephemeral
      ≠ ZkOp.create ("/T/replicas/r1" ++ "/is_active") "12345" CreateMode.ephemeral :=
  ⟨(activateReplica_creates_empty_value "/T/replicas/r1" "host: h\nport: 9009\n" "12345").1,
   (activateReplica_creates_empty_value "/T/replicas/r1" "host: h\nport: 9009\n" "12345").2.1,
   (activateReplica_creates_empty_value "/T/replicas/r1" "host: h\nport: 9009\n" "12345").2.2
     (by decide)⟩

/- ===================== C7: canMergeParts ===================== -/

/-- The slice of a data part that canMergeParts reads: its name and its
    block-number range within its month. -/
structure PartInfo where
  name : String
  left : Nat
  right : Nat
deriving DecidableEq, Repr

/-- Outcomes of AbandonableLockInZooKeeper::check. -/
inductive LockCheck where
  | unlocked
  | locked
  | abandoned
deriving DecidableEq, Repr

/-- The 10-digit zero padding applied to block numbers:
    `while (number_str.size() < 10) number_str = '0' + number_str`. -/
def padded10 (n : Nat) : String :=
  String.mk (List.replicate (10 - (toString n).length) '0') ++ toString n

/-- Model of StorageReplicatedMergeTree::canMergeParts.
    `virtualContaining` is virtual_parts.getContainingPart, `zkHasPart` the
    coordinator `exists` check, and `blockCheck` the
    AbandonableLockInZooKeeper::check collaborator on a path (its
    implementation lives outside this file's source).  The source loop
    `for (number = left.right + 1; number <= right.left - 1; ++number)` is
    modelled with a Nat count; for `right.left = 0` the C++ UInt64 bound
    would underflow, so the theorem below assumes `1 ≤ right.left`, which
    holds for any ordered pair of parts. -/
def canMergeParts (virtualContaining : String → String) (zkHasPart : String → Bool)
    (blockCheck : String → LockCheck) (zookeeper_path replica_path : String)
    (left right : PartInfo) : Bool :=
  if !(decide (virtualContaining left.name = left.name))
      || !(decide (virtualContaining right.name = right.name)) then
    false
  else if !(zkHasPart (replica_path ++ "/parts/" ++ left.name))
      || !(zkHasPart (replica_path ++ "/parts/" ++ right.name)) then
    false
  else
    (List.range' (left.right + 1) (right.left - 1 - left.right)).all
      (fun number =>
        decide (blockCheck (zookeeper_path ++ "/block_numbers/"
          ++ left.name.take 6 ++ "/block-" ++ padded10 number) = LockCheck.abandoned))

/-- C7: canMergeParts returns true iff both parts are their own cover in the
    virtual-parts index, both have coordinator part records, and every block
    number strictly between left.right and right.left is an abandoned lock
    under `/block_numbers/<month>/` with month the first six characters of
    the left part's name; otherwise it returns false. -/
theorem canMergeParts_iff (virtualContaining : String → String)
    (zkHasPart : String → Bool) (blockCheck : String → LockCheck)
    (zookeeper_path replica_path : String) (left right : PartInfo)
    (_hwf : 1 ≤ right.left) :
    canMergeParts virtualContaining zkHasPart blockCheck zookeeper_path replica_path
        left right = true ↔
      (virtualContaining left.name = left.name ∧
       virtualContaining right.name = right.name ∧
       zkHasPart (replica_path ++ "/parts/" ++ left.name) = true ∧
       zkHasPart (replica_path ++ "/parts/" ++ right.name) = true ∧
       ∀ n : Nat, left.right < n → n < right.left →
         blockCheck (zookeeper_path ++ "/block_numbers/" ++ left.name.take 6
           ++ "/block-" ++ padded10 n) = LockCheck.abandoned) := by
  unfold canMergeParts
  by_cases h1 : virtualContaining left.name = left.name
  · by_cases h2 : virtualContaining right.name = right.name
    · rw [if_neg (by simp [h1, h2])]
      by_cases h3 : zkHasPart (replica_path ++ "/parts/" ++ left.name) = true
      · by_cases h4 : zkHasPart (replica_path ++ "/parts/" ++ right.name) = true
        · rw [if_neg (by simp [h3, h4])]
          simp only [List.all_eq_true, decide_eq_true_eq, h1, h2, h3, h4,
            true_and]
          constructor
          · intro hall n hn1 hn2
            apply hall
            rw [List.mem_range'_1]
            omega
          · intro hall n hn
            rw [List.mem_range'_1] at hn
            exact hall n (by omega) (by omega)
        · rw [if_pos (by simp [h4])]
          simp [h4]
      · rw [if_pos (by simp [h3])]
        simp [h3]
    · rw [if_pos (by simp [h2])]
      simp [h2]
  · rw [if_pos (by simp [h1])]
    simp [h1]

/-- Concrete check for C7: two adjacent parts with one abandoned block number
    between them, both self-covering and both registered. -/
theorem canMergeParts_iff_check :
    (canMergeParts (fun n => n) (fun _ => true) (fun _ => LockCheck.abandoned)
        "/T" "/T/replicas/r1" ⟨"20140101_20140105_0_3_1", 0, 3⟩
        ⟨"20140101_20140110_5_7_1", 5, 7⟩ = true ↔
      ((fun (n : String) => n) "20140101_20140105_0_3_1" = "20140101_20140105_0_3_1" ∧
       (fun (n : String) => n) "20140101_20140110_5_7_1" = "20140101_20140110_5_7_1" ∧
       (fun (_ : String) => true) ("/T/replicas/r1" ++ "/parts/" ++ "20140101_20140105_0_3_1") = true ∧
       (fun (_ : String) => true) ("/T/replicas/r1" ++ "/parts/" ++ "20140101_20140110_5_7_1") = true ∧
       ∀ n : Nat, 3 < n → n < 5 →
         (fun (_ : String) => LockCheck.abandoned)
           ("/T" ++ "/block_numbers/" ++ ("20140101_20140105_0_3_1").take 6
             ++ "/block-" ++ padded10 n) = LockCheck.abandoned)) :=
  canMergeParts_iff (fun n => n) (fun _ => true) (fun _ => LockCheck.abandoned)
    "/T" "/T/replicas/r1" ⟨"20140101_20140105_0_3_1", 0, 3⟩
    ⟨"20140101_20140110_5_7_1", 5, 7⟩ (by decide)

/- ===================== C9: one merge-selection iteration ===================== -/

/-- What the external merge planner (MergeTreeDataMerger::selectPartsToMerge,
    called twice with progressively relaxed bounds) returned: the chosen
    input part names and the merged part name.  It is abstracted as one
    function of the final has_big_merge flag. -/
structure MergeChoice where
  partNames : List String
  mergedName : String
deriving DecidableEq, Repr

/-- One iteration of the loop body of
    StorageReplicatedMergeTree::mergeSelectingThread, returning the
    MERGE_PARTS entry appended to `/replicas/<self>/log` (none when the
    iteration selects no merge).  Mirroring the source control flow:
    merges_queued is counted by scanning the queue only when the shared
    "replicated big merges" counter is zero; the cap check then compares
    merges_queued against max_replicated_merges_in_queue.  `bigInput name`
    models "the exact local part `name` exists and exceeds 25 MiB". -/
def mergeSelectIter (replica_name : String) (bigMergesCounter : Nat)
    (queue : List LogEntry) (maxMergesInQueue : Nat)
    (bigInput : String → Bool)
    (planner : Bool → Option MergeChoice) : Option LogEntry :=
  let hbm0 := decide (bigMergesCounter > 0)
  let merges_queued := if hbm0 then 0 else
    (queue.filter (fun e => decide (e.type = EntryType.merge))).length
  let has_big_merge := hbm0 ||
    (!hbm0 && queue.any (fun e => decide (e.type = EntryType.merge)
      && e.parts_to_merge.any bigInput))
  if merges_queued ≥ maxMergesInQueue then
    none
  else
    match planner has_big_merge with
    | none => none
    | some choice =>
      some ⟨EntryType.merge, replica_name, choice.mergedName, choice.partNames⟩

/-- C9 counterexample: with the shared "replicated big merges" counter
    nonzero the queue scan is skipped, merges_queued stays 0, and the
    iteration appends a merge entry even though the queue already holds
    max_replicated_merges_in_queue (= 1 here) MERGE_PARTS entries — the
    claim says it must select nothing in that situation. -/
theorem mergeSelect_cap_not_enforced :
    ((([entryMergeP3] : List LogEntry).filter
        (fun e => decide (e.type = EntryType.merge))).length ≥ 1) ∧
    mergeSelectIter "r1" 1 [entryMergeP3] 1 (fun _ => false)
        (fun _ => some ⟨["p1", "p2"], "p3"⟩)
      = some ⟨EntryType.merge, "r1", "p3", ["p1", "p2"]⟩ :=
  ⟨by decide, by decide⟩

/-- C9 amended: in every iteration in which the shared "replicated big
    merges" counter is zero — so the queue scan actually counts — if the
    number of MERGE_PARTS entries in the queue is at least
    max_replicated_merges_in_queue, the iteration selects no merge and
    appends no log entry.  (When the counter is nonzero the count is skipped
    and left at zero, so the cap is not enforced in that iteration.) -/
theorem mergeSelect_cap_when_counter_zero (replica_name : String)
    (queue : List LogEntry) (maxq : Nat) (bigInput : String → Bool)
    (planner : Bool → Option MergeChoice)
    (hcap : (queue.filter (fun e => decide (e.type = EntryType.merge))).length ≥ maxq) :
    mergeSelectIter replica_name 0 queue maxq bigInput planner = none := by
  unfold mergeSelectIter
  rw [if_pos]
  simpa using hcap

/-- Concrete check for C9's amended statement: counter 0, one queued merge,
    cap 1: nothing is selected. -/
theorem mergeSelect_cap_when_counter_zero_check :
    mergeSelectIter "r1" 0 [entryMergeP3] 1 (fun _ => false)
        (fun _ => some ⟨["p1", "p2"], "p3"⟩) = none :=
  mergeSelect_cap_when_counter_zero "r1" [entryMergeP3] 1 (fun _ => false)
    (fun _ => some ⟨["p1", "p2"], "p3"⟩) (by decide)

/- ============ C10: construction without a coordinator session ============ -/

/-- The lifecycle state a storage instance carries through construction,
    goReadOnly and the public surface. -/
structure StorageState where
  is_read_only : Bool
  shutdown_called : Bool
  permanent_shutdown_called : Bool
  replica_registered : Bool
  queue_loaded : Bool
  restarting_thread_started : Bool
  endpoint_created : Bool
deriving DecidableEq, Repr

/-- StorageReplicatedMergeTree::goReadOnly: sets the sticky read-only flag
    and both shutdown flags, and releases the fetch-server endpoint. -/
def goReadOnly (s : StorageState) : StorageState :=
  { s with is_read_only := true, shutdown_called := true,
           permanent_shutdown_called := true, endpoint_created := false }

/-- The constructor of StorageReplicatedMergeTree: with a null coordinator
    handle it calls goReadOnly and returns at once — no table or replica
    registration or reconciliation, no queue load, no restarting thread.
    With a live session it performs them all and starts the thread. -/
def constructStorage (hasZookeeper : Bool) : StorageState :=
  let fresh : StorageState :=
    { is_read_only := false, shutdown_called := false,
      permanent_shutdown_called := false, replica_registered := false,
      queue_loaded := false, restarting_thread_started := false,
      endpoint_created := false }
  if !hasZookeeper then
    goReadOnly fresh
  else
    { is_read_only := false, shutdown_called := false,
      permanent_shutdown_called := false, replica_registered := true,
      queue_loaded := true, restarting_thread_started := true,
      endpoint_created := false }

/-- StorageReplicatedMergeTree::create: the interserver fetch endpoint is
    registered only when the constructed instance is not read-only. -/
def createStorage (hasZookeeper : Bool) : StorageState :=
  let s := constructStorage hasZookeeper
  if !s.is_read_only then { s with endpoint_created := true } else s

/-- Outcome of write(). -/
inductive WriteResult where
  | stream
  | errorTableIsReadOnly
deriving DecidableEq, Repr

/-- StorageReplicatedMergeTree::write: raises TABLE_IS_READ_ONLY when the
    read-only flag is set, otherwise returns the replicated output stream. -/
def writeStorage (s : StorageState) : WriteResult :=
  if s.is_read_only then WriteResult.errorTableIsReadOnly else WriteResult.stream

/-- StorageReplicatedMergeTree::read performs no read-only check: it always
    builds the reader streams (true = streams produced). -/
def readStorage (_ : StorageState) : Bool :=
  true

/-- C10: a storage constructed while the coordinator handle is null goes
    permanently read-only immediately: nothing is registered, no queue is
    loaded, no background (restarting) thread starts, no fetch endpoint is
    created, every write raises TABLE_IS_READ_ONLY, and read still works. -/
theorem construct_without_zookeeper_read_only :
    (createStorage false).is_read_only = true ∧
    (createStorage false).permanent_shutdown_called = true ∧
    (createStorage false).replica_registered = false ∧
    (createStorage false).queue_loaded = false ∧
    (createStorage false).restarting_thread_started = false ∧
    (createStorage false).endpoint_created = false ∧
    writeStorage (createStorage false) = WriteResult.errorTableIsReadOnly ∧
    readStorage (createStorage false) = true := by
  decide

/- ===================== C8: log entry codec ===================== -/

/-- DB::assertString over a character list: succeed, returning the rest,
    only when the input starts with the expected text. -/
def expectText (pre l : List Char) : Option (List Char) :=
  if pre.isPrefixOf l then some (l.drop pre.length) else none

/-- LogEntry::writeText.  The grouping mirrors the byte stream written by the
    successive writeString calls: header line, source replica line, then for
    GET the "get" line, the part name and the final newline; for MERGE the
    "merge" line, one line per input part, the "into" line, the output name
    and the final newline. -/
def writeText (e : LogEntry) : List Char :=
  "format version: 1\n".toList
    ++ ("source replica: ".toList
    ++ (e.source_replica.toList
    ++ ('\n' ::
      (match e.type with
       | EntryType.get => "get\n".toList ++ (e.new_part_name.toList ++ ['\n'])
       | EntryType.merge =>
         "merge\n".toList
           ++ e.parts_to_merge.foldr (fun s acc => s.toList ++ ('\n' :: acc))
               ("into\n".toList ++ (e.new_part_name.toList ++ ['\n']))))))

theorem dropWhile_length_le (p : Char → Bool) (l : List Char) :
    (l.dropWhile p).length ≤ l.length := by
  induction l with
  | nil => simp
  | cons a t ih =>
    simp only [List.dropWhile_cons]
    split
    · calc (t.dropWhile p).length ≤ t.length := ih
        _ ≤ (a :: t).length := by simp
    · simp

/-- The merge branch loop of LogEntry::readText: read a line and its
    newline; the literal line "into" ends the list, any other line is an
    input part name. -/
def readMergeParts (l : List Char) : Option (List String × List Char) :=
  match hdw : l.dropWhile (fun c => decide (c ≠ '\n')) with
  | [] => none
  | _ :: rest2 =>
    let s := l.takeWhile (fun c => decide (c ≠ '\n'))
    if s = "into".toList then
      some ([], rest2)
    else
      match readMergeParts rest2 with
      | none => none
      | some (ps, r) => some (String.mk s :: ps, r)
termination_by l.length
decreasing_by
  have hle := dropWhile_length_le (fun c => decide (c ≠ '\n')) l
  rw [hdw] at hle
  simp at hle
  omega

/-- LogEntry::readText.  readString reads up to an unconsumed newline;
    assertString("\n") consumes it.  A type line that is neither "get" nor
    "merge" leaves the entry's type unassigned in the source; the model
    rejects such input, which no writeText output triggers. -/
def readText (l : List Char) : Option LogEntry :=
  match expectText ("format version: 1\n".toList) l with
  | none => none
  | some l1 =>
    match expectText ("source replica: ".toList) l1 with
    | none => none
    | some l2 =>
      let sr := l2.takeWhile (fun c => decide (c ≠ '\n'))
      match expectText ['\n'] (l2.dropWhile (fun c => decide (c ≠ '\n'))) with
      | none => none
      | some l4 =>
        let ts := l4.takeWhile (fun c => decide (c ≠ '\n'))
        match expectText ['\n'] (l4.dropWhile (fun c => decide (c ≠ '\n'))) with
        | none => none
        | some l6 =>
          if ts = "get".toList then
            let name := l6.takeWhile (fun c => decide (c ≠ '\n'))
            match expectText ['\n'] (l6.dropWhile (fun c => decide (c ≠ '\n'))) with
            | none => none
            | some _ => some ⟨EntryType.get, String.mk sr, String.mk name, []⟩
          else if ts = "merge".toList then
            match readMergeParts l6 with
            | none => none
            | some (ps, l7) =>
              let name := l7.takeWhile (fun c => decide (c ≠ '\n'))
              match expectText ['\n'] (l7.dropWhile (fun c => decide (c ≠ '\n'))) with
              | none => none
              | some _ => some ⟨EntryType.merge, String.mk sr, String.mk name, ps⟩
          else
            none

/-- Well-formed entries, per the claim: a GET_PART carries a part name and no
    input list; a MERGE_PARTS carries input part names and an output name.
    Serialised fields are single lines (no newline), and no input part is the
    literal "into", which terminates the list in the text format — a real
    part name (month bucket plus block range) never is. -/
def WellFormedEntry (e : LogEntry) : Prop :=
  (∀ c ∈ e.source_replica.toList, c ≠ '\n') ∧
  (∀ c ∈ e.new_part_name.toList, c ≠ '\n') ∧
  (∀ p ∈ e.parts_to_merge, (∀ c ∈ p.toList, c ≠ '\n') ∧ p ≠ "into") ∧
  (e.type = EntryType.get → e.parts_to_merge = [])

theorem isPrefixOf_append_self (pre rest : List Char) :
    pre.isPrefixOf (pre ++ rest) = true := by
  induction pre with
  | nil => simp [List.isPrefixOf]
  | cons c cs ih => simp [List.isPrefixOf, ih]

theorem expectText_append (pre rest : List Char) :
    expectText pre (pre ++ rest) = some rest := by
  unfold expectText
  rw [if_pos (isPrefixOf_append_self pre rest)]
  rw [List.drop_left]

theorem takeWhile_line (s rest : List Char) (h : ∀ c ∈ s, c ≠ '\n') :
    (s ++ '\n' :: rest).takeWhile (fun c => decide (c ≠ '\n')) = s := by
  induction s with
  | nil => simp [List.takeWhile_cons]
  | cons c cs ih =>
    simp only [List.cons_append, List.takeWhile_cons]
    rw [decide_eq_true (h c (List.mem_cons_self _ _))]
    simp only [if_true]
    rw [ih (fun x hx => h x (List.mem_cons_of_mem _ hx))]

theorem dropWhile_line (s rest : List Char) (h : ∀ c ∈ s, c ≠ '\n') :
    (s ++ '\n' :: rest).dropWhile (fun c => decide (c ≠ '\n')) = '\n' :: rest := by
  induction s with
  | nil => simp [List.dropWhile_cons]
  | cons c cs ih =>
    simp only [List.cons_append, List.dropWhile_cons]
    rw [decide_eq_true (h c (List.mem_cons_self _ _))]
    simp only [if_true]
    exact ih (fun x hx => h x (List.mem_cons_of_mem _ hx))

theorem expectText_newline (rest : List Char) :
    expectText ['\n'] ('\n' :: rest) = some rest := by
  have : (['\n'] : List Char) ++ rest = '\n' :: rest := rfl
  rw [← this, expectText_append]

theorem readMergeParts_roundtrip (ps : List String) (tail : List Char)
    (h : ∀ p ∈ ps, (∀ c ∈ p.toList, c ≠ '\n') ∧ p ≠ "into") :
    readMergeParts (ps.foldr (fun s acc => s.toList ++ ('\n' :: acc))
        ("into\n".toList ++ tail)) = some (ps, tail) := by
  induction ps with
  | nil =>
    simp only [List.foldr_nil]
    rw [show ("into\n".toList ++ tail) = "into".toList ++ ('\n' :: tail) from rfl]
    rw [readMergeParts]
    split
    · rename_i heq
      rw [dropWhile_line _ _ (by decide)] at heq
      cases heq
    · rename_i a r heq
      rw [dropWhile_line _ _ (by decide)] at heq
      cases heq
      rw [takeWhile_line _ _ (by decide)]
      rw [if_pos rfl]
  | cons p ps ih =>
    simp only [List.foldr_cons]
    have hnl : ∀ c ∈ p.toList, c ≠ '\n' := (h p (List.mem_cons_self _ _)).1
    rw [readMergeParts]
    split
    · rename_i heq
      rw [dropWhile_line _ _ hnl] at heq
      cases heq
    · rename_i a r heq
      rw [dropWhile_line _ _ hnl] at heq
      cases heq
      rw [takeWhile_line _ _ hnl]
      dsimp only
      split
      · rename_i hcond
        exact absurd (congrArg String.mk hcond) (h p (List.mem_cons_self _ _)).2
      · rw [ih (fun q hq => h q (List.mem_cons_of_mem _ hq))]
        rfl

/-- C8: the log-entry codec is a round-trip — decoding the text produced for
    any well-formed entry (GET_PART with a part name, or MERGE_PARTS with
    input part names and an output name) yields an entry equal to it. -/
theorem logEntry_codec_roundtrip (e : LogEntry) (h : WellFormedEntry e) :
    readText (writeText e) = some e := by
  obtain ⟨ty, sr, np, pm⟩ := e
  obtain ⟨hsr, hnp, hpm, hget⟩ := h
  cases ty with
  | get =>
    have hpm0 : pm = [] := hget rfl
    subst hpm0
    rw [show writeText ⟨EntryType.get, sr, np, []⟩
        = "format version: 1\n".toList ++ ("source replica: ".toList
          ++ (sr.toList ++ ('\n' :: ("get\n".toList ++ (np.toList ++ ['\n'])))))
      from rfl]
    unfold readText
    rw [expectText_append]
    dsimp only
    rw [expectText_append]
    dsimp only
    rw [takeWhile_line _ _ hsr, dropWhile_line _ _ hsr]
    rw [expectText_newline]
    dsimp only
    rw [show ("get\n".toList ++ (np.toList ++ ['\n']))
        = "get".toList ++ ('\n' :: (np.toList ++ ['\n'])) from rfl]
    rw [takeWhile_line _ _ (by decide), dropWhile_line _ _ (by decide)]
    rw [expectText_newline]
    dsimp only
    rw [if_pos rfl]
    rw [takeWhile_line _ _ hnp, dropWhile_line _ _ hnp]
    rw [expectText_newline]
    rfl
  | merge =>
    rw [show writeText ⟨EntryType.merge, sr, np, pm⟩
        = "format version: 1\n".toList ++ ("source replica: ".toList
          ++ (sr.toList ++ ('\n' :: ("merge\n".toList
          ++ pm.foldr (fun s acc => s.toList ++ ('\n' :: acc))
              ("into\n".toList ++ (np.toList ++ ['\n']))))))
      from rfl]
    unfold readText
    rw [expectText_append]
    dsimp only
    rw [expectText_append]
    dsimp only
    rw [takeWhile_line _ _ hsr, dropWhile_line _ _ hsr]
    rw [expectText_newline]
    dsimp only
    rw [show ("merge\n".toList
        ++ pm.foldr (fun s acc => s.toList ++ ('\n' :: acc))
            ("into\n".toList ++ (np.toList ++ ['\n'])))
        = "merge".toList ++ ('\n' :: pm.foldr (fun s acc => s.toList ++ ('\n' :: acc))
            ("into\n".toList ++ (np.toList ++ ['\n'])))
      from rfl]
    rw [takeWhile_line _ _ (by decide), dropWhile_line _ _ (by decide)]
    rw [expectText_newline]
    dsimp only
    rw [if_neg (by decide)]
    rw [if_pos rfl]
    rw [readMergeParts_roundtrip pm (np.toList ++ ['\n']) hpm]
    dsimp only
    rw [takeWhile_line _ _ hnp, dropWhile_line _ _ hnp]
    rw [expectText_newline]
    rfl

/-- Concrete check for C8: a GET and a MERGE entry both decode back to
    themselves. -/
theorem logEntry_codec_roundtrip_check :
    readText (writeText ⟨EntryType.get, "r1", "20140101_20140105_0_3_1", []⟩)
      = some ⟨EntryType.get, "r1", "20140101_20140105_0_3_1", []⟩ ∧
    readText (writeText ⟨EntryType.merge, "r2", "p3", ["p1", "p2"]⟩)
      = some ⟨EntryType.merge, "r2", "p3", ["p1", "p2"]⟩ :=
  ⟨logEntry_codec_roundtrip ⟨EntryType.get, "r1", "20140101_20140105_0_3_1", []⟩
    (by refine ⟨?_, ?_, ?_, ?_⟩ <;> decide),
   logEntry_codec_roundtrip ⟨EntryType.merge, "r2", "p3", ["p1", "p2"]⟩
    (by refine ⟨?_, ?_, ?_, ?_⟩ <;> decide)⟩
